import Mathlib

/-!
Verification of the nojo manifest-driven non-destructive file synchronization
engine (shallow embedding of the TypeScript sources).

File contents are modelled as strings; a destination directory tree is a flat
finite map from the path relative to the install root (a list of path
components) to the file content.  The SHA-256 content digest and the template
path substitution are modelled as opaque function parameters (the engine only
relies on the digest being a deterministic function of the content, and on the
substitution being a fixed text transform for a fixed install root).  Persisted
JSON documents (the manifest file and the config file) are modelled by an
inductive `Json` type; a file read that fails, or whose content is not valid
JSON, is modelled as `Option.none`.
-/

namespace Nojo

/-- A path relative to the install root, as a list of path components
(`path.join` / `path.relative` bookkeeping in the sources). -/
abbrev RelPath := List String

/-- Lookup in an association-list map keyed by relative path
(models JS object property read `m[k]`). -/
def lookupKV {α : Type} : List (RelPath × α) → RelPath → Option α
  | [], _ => none
  | (k, v) :: t, q => if k = q then some v else lookupKV t q

/-- Insert/overwrite in an association-list map keyed by relative path
(models JS object property write `m[k] = v`: replaces the value of an
existing key in place, otherwise appends the key). -/
def insertKV {α : Type} (k : RelPath) (v : α) : List (RelPath × α) → List (RelPath × α)
  | [] => [(k, v)]
  | (k', v') :: t => if k' = k then (k, v) :: t else (k', v') :: insertKV k v t



/-- JSON values, as produced by `JSON.parse`.  Numbers are modelled as
integers: the only numeric comparison the engine performs is against the
literal `1`, and no non-integral number is ever equal to it. -/
inductive Json where
  | null
  | bool (b : Bool)
  | num (n : Int)
  | str (s : String)
  | arr (elems : List Json)
  | obj (fields : List (String × Json))

/-- Property read `j.k` on a parsed JSON value: defined (`some`) exactly for
object fields; on every non-object it is `undefined` (`none`). -/
def getField : Json → String → Option Json
  | .obj fields, k => go fields k
  | _, _ => none
where
  go : List (String × Json) → String → Option Json
    | [], _ => none
    | (k', v) :: t, k => if k' = k then some v else go t k

/-- Property write `j.k = v` on a parsed JSON object (replaces in place or
appends).  The engine only ever writes properties of validated manifest
objects, so the non-object case is never reached and is the identity. -/
def setField : Json → String → Json → Json
  | .obj fields, k, v => .obj (go fields k v)
  | j, _, _ => j
where
  go : List (String × Json) → String → Json → List (String × Json)
    | [], k, v => [(k, v)]
    | (k', v') :: t, k, v => if k' = k then (k, v) :: t else (k', v') :: go t k v

/-- Models `typeof j === "object"` for a parsed JSON value: true exactly for objects,
arrays and `null` (the classic JS quirk that `typeof null` is `"object"`). -/
def jsTypeofObject : Json → Bool
  | .null => true
  | .arr _ => true
  | .obj _ => true
  | _ => false

/-- Models `x === 1` for an optional property value. -/
def isNumOne : Option Json → Bool
  | some (.num n) => n == 1
  | _ => false

/-- Models `typeof x === "object"` for an optional property value (an absent property
reads as `undefined`, whose typeof is `"undefined"`). -/
def fieldTypeofObject : Option Json → Bool
  | some j => jsTypeofObject j
  | none => false

/-- Source function `loadManifest` (manifest.ts, lines 111-137).  The input is the result of
reading and parsing the manifest file: `none` when the file is missing,
unreadable, or not valid JSON (the `catch` branch), `some m` when parsing
produced the JSON value `m`.  Mirrors the source's validation:
`manifest == null || typeof manifest !== "object" ||
 manifest.schemaVersion !== 1 || typeof manifest.files !== "object"`. -/
def loadManifest (content : Option Json) : Option Json :=
  match content with
  | none => none
  | some m =>
    if m matches .null then none
    else if !jsTypeofObject m then none
    else if !isNumOne (getField m "schemaVersion") then none
    else if !fieldTypeofObject (getField m "files") then none
    else some m

/-- Source function `saveManifest` (manifest.ts, lines 145-161), restricted to the JSON value
it persists: before writing, the manifest's `updatedAt` is set to the current
timestamp and its `nojoVersion` to the current package version
(`getCurrentPackageVersion() ?? "unknown"`, passed here as `version`).
Directory creation and the actual disk write carry no further information. -/
def saveManifest (m : Json) (now version : String) : Json :=
  setField (setField m "updatedAt" (.str now)) "nojoVersion" (.str version)



/-- Source function `computeFileHash` (manifest.ts, lines 38-44) reads a file and returns the
SHA-256 hex digest of its content.  `hash` is the digest function (opaque,
deterministic); the input is the file's content, `none` when the read fails
(file missing or unreadable), in which case the source call throws, modelled
as `none`. -/
def computeFileHash (hash : String → String) (content : Option String) : Option String :=
  content.map hash

/-- Source function `isFileModified` (manifest.ts, lines 54-67): hashes the file and compares
against the expected hash; the `catch` branch turns any read failure into
`false` ("file doesn't exist - not modified (it was deleted)"). -/
def isFileModified (hash : String → String) (content : Option String)
    (expectedHash : String) : Bool :=
  match computeFileHash hash content with
  | some currentHash => currentHash != expectedHash
  | none => false

/-- The in-memory configuration produced by `loadConfig` (config.ts).  The
`agents` field is kept as the validated JSON object (a map from agent name to
agent configuration), because the source copies it wholesale. -/
structure Config where
  installDir : String
  autoupdate : Option Json
  version : Option Json
  agents : Option Json

/-- Schema check for the `profile` property (`type: ["object", "null"]` with
an optional string `baseProfile`). -/
def validProfileField : Json → Bool
  | .null => true
  | .obj fields => match getField.go fields "baseProfile" with
    | some (.str _) => true
    | some _ => false
    | none => true
  | _ => false

/-- Schema check for one agent's configuration (`type: "object"` with an
optional `profile` sub-object). -/
def validAgentConfig : Json → Bool
  | .obj fields => match getField.go fields "profile" with
    | some p => validProfileField p
    | none => true
  | _ => false

/-- Schema check for the `agents` property (`type: "object"` whose values are
agent configurations). -/
def validAgentsField : Json → Bool
  | .obj fields => fields.all (fun kv => validAgentConfig kv.2)
  | _ => false

/-- The keys the config schema declares; `removeAdditional: true` strips every
other top-level property. -/
def configSchemaKeys : List String :=
  ["autoupdate", "profile", "installDir", "agents", "version"]

/-- Source function `validateConfigSchema` (config.ts, lines 243-287): the Ajv validator
compiled from `configSchema` with `useDefaults: true` (fills in
`autoupdate: "disabled"` when absent) and `removeAdditional: true` (drops
unknown top-level properties, the only level with `additionalProperties:
false`).  Returns the mutated clone on success, `none` on validation
failure. -/
def validateConfigSchema (j : Json) : Option Json :=
  match j with
  | .obj fields =>
    let autoupdateOk := match getField.go fields "autoupdate" with
      | some (.str s) => s == "enabled" || s == "disabled"
      | some _ => false
      | none => true
    let profileOk := match getField.go fields "profile" with
      | some p => validProfileField p
      | none => true
    let installDirOk := match getField.go fields "installDir" with
      | some (.str _) => true
      | some _ => false
      | none => true
    let agentsOk := match getField.go fields "agents" with
      | some a => validAgentsField a
      | none => true
    let versionOk := match getField.go fields "version" with
      | some (.str _) => true
      | some _ => false
      | none => true
    if autoupdateOk && profileOk && installDirOk && agentsOk && versionOk then
      let kept := fields.filter (fun kv => kv.1 ∈ configSchemaKeys)
      let withDefault := match getField.go kept "autoupdate" with
        | some _ => kept
        | none => kept ++ [("autoupdate", .str "disabled")]
      some (.obj withDefault)
    else none
  | _ => none

/-- The legacy-migration branch of `loadConfig` (config.ts, lines 170-177):
when `validated.profile?.baseProfile != null`, the legacy top-level profile is
converted to an `agents.claude-code` entry (`?.` on a `null` or absent
`profile` yields `undefined`, and a `null` `baseProfile` also skips). -/
def legacyAgentsOf (validated : Json) : Option Json :=
  match getField validated "profile" with
  | some prof => match getField prof "baseProfile" with
    | some bp =>
      if bp matches .null then none
      else some (.obj [("claude-code", .obj [("profile", .obj [("baseProfile", bp)])])])
    | none => none
  | none => none

/-- Source function `loadConfig` (config.ts, lines 129-188).  The input is the parsed config
file content (`none`: missing file or invalid JSON, the `catch` branch).
After schema validation it builds the result: `agents` is copied when
`validated.agents != null`, otherwise the legacy `profile` field is migrated;
the result is returned only when it has `agents` or `autoupdate` data. -/
def loadConfig (content : Option Json) (installDir : String) : Option Config :=
  match content with
  | none => none
  | some raw =>
    if raw matches .null then none
    else if !jsTypeofObject raw then none
    else match validateConfigSchema raw with
      | none => none
      | some validated =>
        let instDir := match getField validated "installDir" with
          | some (.str s) => s
          | _ => installDir
        let autoupdate := getField validated "autoupdate"
        let version := getField validated "version"
        let agents : Option Json := match getField validated "agents" with
          | some a => if a matches .null then legacyAgentsOf validated else some a
          | none => legacyAgentsOf validated
        if agents.isSome || autoupdate.isSome then
          some { installDir := instDir, autoupdate := autoupdate,
                 version := version, agents := agents }
        else none

/-- Models `Object.keys` on a parsed JSON value (only ever applied to objects in the
modelled code paths). -/
def jsObjectKeys : Json → List String
  | .obj fields => fields.map Prod.fst
  | _ => []

/-- Source function `getInstalledAgents` (config.ts, lines 89-93):
`Object.keys(config.agents ?? \x7b\x7d)`, falling back to `["claude-code"]`
when that key list is empty. -/
def getInstalledAgents (config : Config) : List String :=
  let agents := match config.agents with
    | some a => jsObjectKeys a
    | none => jsObjectKeys (.obj [])
  if agents.length > 0 then agents else ["claude-code"]

/-- Models `name.endsWith(".md")` — string suffix test, via the underlying character
lists so that it evaluates by `decide`. -/
def strEndsWith (s suffix : String) : Bool :=
  List.isSuffixOf suffix.data s.data

/-- One entry of a source directory tree, as returned by
`fs.readdir(src, \x7b withFileTypes: true \x7d)`: either a file with its
content, or a subdirectory with its own entries. -/
inductive SrcEntry where
  | file (name : String) (content : String)
  | dir (name : String) (children : List SrcEntry)

/-- The ambient parameters of one sync run: the SHA-256 digest function
(`computeFileHash`), `substituteTemplatePaths` specialised to the fixed
install directory, and the values the manifest entries record —
`profileName`, `getCurrentPackageVersion() ?? "unknown"` and
`new Date().toISOString()`. -/
structure SyncCtx where
  hash : String → String
  subst : String → String
  profileName : String
  version : String
  now : String

/-- One tracked file in the manifest (`ManifestEntry` in manifest/types.ts),
with `path` as a relative path. -/
structure ManifestEntry where
  path : RelPath
  hash : String
  source : String
  profile : Option String
  version : String
  installedAt : String
deriving DecidableEq

/-- The in-memory state one sync run threads through the walk: `fs` is the
destination tree (relative path to content) and `files` the manifest's
`files` map.  The source accumulates two integer counters (`preserved`,
`installed`); the embedding records the relative path counted at each
increment, so that per-file attribution is statable — the source's counters
are the lengths `installedPaths.length` and `preservedPaths.length`. -/
structure SyncState where
  fs : List (RelPath × String)
  files : List (RelPath × ManifestEntry)
  installedPaths : List RelPath
  preservedPaths : List RelPath

/-- Source function `getManifestEntry` (manifest.ts, lines 210-216):
`manifest.files[filePath] ?? null`. -/
def getManifestEntry (files : List (RelPath × ManifestEntry)) (path : RelPath) :
    Option ManifestEntry :=
  lookupKV files path

/-- Source function `addToManifest` (manifest.ts, lines 169-183): overwrites
`manifest.files[path]` with a freshly built entry. -/
def addToManifest (files : List (RelPath × ManifestEntry)) (path : RelPath)
    (hash source : String) (profile : Option String) (version installedAt : String) :
    List (RelPath × ManifestEntry) :=
  insertKV path ⟨path, hash, source, profile, version, installedAt⟩ files

/-- The per-file three-way decision of the synchronizer. -/
inductive SyncDecision where
  | installFile
  | preserveFile
deriving DecidableEq

/-- The content a sync run writes for a source file: `.md` files get the
template path substitution applied (skills loader, lines 102-108), all other
files are copied verbatim (`fs.copyFile`). -/
def writtenContent (ctx : SyncCtx) (name content : String) : String :=
  if strEndsWith name ".md" then ctx.subst content else content

/-- The manifest entry `addToManifest` records after the engine writes the
content `w` at relative path `p` (skills loader, lines 142-150). -/
def installedEntry (ctx : SyncCtx) (p : RelPath) (w : String) : ManifestEntry :=
  ⟨p, ctx.hash w, "nojo", some ctx.profileName, ctx.version, ctx.now⟩

/-- The decision policy of `copyDirWithManifestTracking` (skills loader,
lines 110-132), as a function of the destination file's current content
(`none` when `fileExists` is false) and its manifest entry (`none` when
untracked): a missing destination is installed; an existing tracked
destination is re-installed exactly when its current hash equals the tracked
hash, and preserved when the user modified it; an existing untracked
destination is preserved. -/
def syncDecision (hash : String → String) (destContent : Option String)
    (entry : Option ManifestEntry) : SyncDecision :=
  match destContent, entry with
  | some c, some e => if hash c != e.hash then .preserveFile else .installFile
  | some _, none => .preserveFile
  | none, _ => .installFile

/-- The file branch of `copyDirWithManifestTracking` (skills loader, lines
100-152): compute the content that would be written (template-substituted for
`.md` files), decide install/preserve from the destination state, and either
leave everything unchanged counting the file preserved, or write the file,
hash the written content (`computeFileHash` on the just-written destination)
and record the `"nojo"`-sourced manifest entry, counting it installed.  The
same logic also handles the top-level loose files in `installSkills` (lines
236-278). -/
def syncFile (ctx : SyncCtx) (relDest : RelPath) (name content : String)
    (st : SyncState) : SyncState :=
  let newContent := writtenContent ctx name content
  let relPath := relDest ++ [name]
  match syncDecision ctx.hash (lookupKV st.fs relPath) (getManifestEntry st.files relPath) with
  | .preserveFile => { st with preservedPaths := st.preservedPaths ++ [relPath] }
  | .installFile =>
    let newHash := ctx.hash newContent
    { st with
      fs := insertKV relPath newContent st.fs
      files := addToManifest st.files relPath newHash "nojo" (some ctx.profileName)
        ctx.version ctx.now
      installedPaths := st.installedPaths ++ [relPath] }

mutual

/-- One iteration of the `for (const entry of entries)` loop in
`copyDirWithManifestTracking` (skills loader, lines 85-153): recurse into a
subdirectory, or run the file branch. -/
def copyEntryTracking (ctx : SyncCtx) (relDest : RelPath) (st : SyncState) :
    SrcEntry → SyncState
  | .file name content => syncFile ctx relDest name content st
  | .dir name children => copyDirWithManifestTracking ctx (relDest ++ [name]) st children

/-- Source function `copyDirWithManifestTracking` (skills loader, lines 69-156) over the
listed source entries, with `relDest` the destination directory relative to
the install root (so each file's manifest key `path.relative(installDir,
destPath)` is `relDest ++ [name]`).  Directory creation (`fs.mkdir`) adds no
file and is not represented in the flat file map. -/
def copyDirWithManifestTracking (ctx : SyncCtx) (relDest : RelPath) (st : SyncState) :
    List SrcEntry → SyncState
  | [] => st
  | e :: rest =>
    copyDirWithManifestTracking ctx relDest (copyEntryTracking ctx relDest st e) rest

end

mutual

/-- The destination relative paths (with source content) of the files a walk
of one source entry visits. -/
def entryFilePaths (relDest : RelPath) : SrcEntry → List (RelPath × String)
  | .file name content => [(relDest ++ [name], content)]
  | .dir name children => entriesFilePaths (relDest ++ [name]) children

/-- The destination relative paths (with source content) of the files a walk
of a source entry list visits, in traversal order. -/
def entriesFilePaths (relDest : RelPath) : List SrcEntry → List (RelPath × String)
  | [] => []
  | e :: rest => entryFilePaths relDest e ++ entriesFilePaths relDest rest

end

/-- Source function `getNojoManagedEntries` (manifest.ts, lines 289-296): the entries whose
`source` is `"nojo"`.  Defined by the source but never called by the
uninstall path. -/
def getNojoManagedEntries (files : List (RelPath × ManifestEntry)) :
    List ManifestEntry :=
  (files.map Prod.snd).filter (fun e => e.source == "nojo")

/-- Source function `uninstallSkills` (skills loader, lines 395-413):
`fs.rm(claudeSkillsDir, \x7b recursive: true, force: true \x7d)` — removes
every file under the skills directory, consulting neither the manifest nor
any content hash.  `skillsDir` is the skills directory relative to the
install root (`getClaudeSkillsDir`). -/
def uninstallSkills (skillsDir : RelPath) (fs : List (RelPath × String)) :
    List (RelPath × String) :=
  fs.filter (fun kv => !(List.isPrefixOf skillsDir kv.1))

/-- Source constant `getManifestPath` (manifest.ts, lines 26-29) relative to the install
root: `.claude/.nojo-manifest.json`. -/
def manifestFilePath : RelPath :=
  [".claude", ".nojo-manifest.json"]

/-- Source function `uninstallManifest` (manifest/loader.ts, lines 88-109): unconditionally
`unlinkSync`s the manifest file whenever it exists, however many tracked
entries it still holds.  (The subsequent removal of the `.claude` directory
happens only when that directory is empty on disk; empty directories do not
exist in the flat file map, so that step is not represented.) -/
def uninstallManifest (fs : List (RelPath × String)) : List (RelPath × String) :=
  fs.filter (fun kv => kv.1 != manifestFilePath)

/-- How a sync run may change the state at each relative path: either it
leaves both the destination file and its manifest entry untouched, or — only
when the decision policy said install for the path's initial state — the
final destination content is some engine-written `w` whose manifest entry
records exactly `hash w`. -/
def OutcomeShape (ctx : SyncCtx) (st st' : SyncState) : Prop :=
  ∀ p, (lookupKV st'.fs p = lookupKV st.fs p ∧ lookupKV st'.files p = lookupKV st.files p)
    ∨ (syncDecision ctx.hash (lookupKV st.fs p) (lookupKV st.files p) = .installFile
       ∧ ∃ w, lookupKV st'.fs p = some w
            ∧ lookupKV st'.files p = some (installedEntry ctx p w))

/-- Two sync states agree at a path when they hold the same destination
content there and their manifest entries there record the same hash — all the
data the decision policy reads. -/
def agreeAt (s₁ s₂ : SyncState) (p : RelPath) : Prop :=
  lookupKV s₂.fs p = lookupKV s₁.fs p
  ∧ (lookupKV s₂.files p).map ManifestEntry.hash
    = (lookupKV s₁.files p).map ManifestEntry.hash

/-- Simulation relation between a first sync run's state `s₁` and a second
run's state `s₂` at the same point of the walk: at every path, either the two
states agree on the destination content and on the tracked hash, or both are
about to take the install branch there. -/
def SimRel (hash : String → String) (s₁ s₂ : SyncState) : Prop :=
  ∀ p, agreeAt s₁ s₂ p
    ∨ (syncDecision hash (lookupKV s₁.fs p) (lookupKV s₁.files p) = .installFile
       ∧ syncDecision hash (lookupKV s₂.fs p) (lookupKV s₂.files p) = .installFile)

theorem lookupKV_insertKV_self {α : Type} (k : RelPath) (v : α) (m : List (RelPath × α)) :
    lookupKV (insertKV k v m) k = some v := by
  induction m with
  | nil => simp [insertKV, lookupKV]
  | cons kv t ih =>
    obtain ⟨k', v'⟩ := kv
    by_cases h : k' = k
    · simp [insertKV, lookupKV, h]
    · simp [insertKV, lookupKV, h, ih]

theorem lookupKV_insertKV_ne {α : Type} (k q : RelPath) (v : α) (m : List (RelPath × α))
    (h : q ≠ k) : lookupKV (insertKV k v m) q = lookupKV m q := by
  have hkq : ¬k = q := fun e => h e.symm
  induction m with
  | nil => simp [insertKV, lookupKV, hkq]
  | cons kv t ih =>
    obtain ⟨k', v'⟩ := kv
    by_cases hk : k' = k
    · subst hk
      simp [insertKV, lookupKV, hkq]
    · by_cases hq : k' = q <;> simp [insertKV, lookupKV, hk, hq, ih, h]

theorem getField_setField_self (m : Json) (hm : m matches .obj _) (k : String) (v : Json) :
    getField (setField m k v) k = some v := by
  match m with
  | .obj fields =>
    show getField.go (setField.go fields k v) k = some v
    induction fields with
    | nil => simp [setField.go, getField.go]
    | cons kv t ih =>
      obtain ⟨k', v'⟩ := kv
      by_cases h : k' = k <;> simp [setField.go, getField.go, h, ih]

theorem getField_setField_ne (m : Json) (k q : String) (v : Json) (h : q ≠ k) :
    getField (setField m k v) q = getField m q := by
  match m with
  | .null | .bool _ | .num _ | .str _ | .arr _ => rfl
  | .obj fields =>
    show getField.go (setField.go fields k v) q = getField.go fields q
    have hkq : ¬k = q := fun e => h e.symm
    induction fields with
    | nil => simp [setField.go, getField.go, hkq]
    | cons kv t ih =>
      obtain ⟨k', v'⟩ := kv
      by_cases hk : k' = k
      · subst hk
        simp [setField.go, getField.go, hkq]
      · by_cases hq : k' = q <;> simp [setField.go, getField.go, hk, hq, ih, h]

theorem syncDecision_modified (hash : String → String) (c : String) (e : ManifestEntry)
    (h : hash c ≠ e.hash) : syncDecision hash (some c) (some e) = .preserveFile := by
  simp [syncDecision, h]

theorem syncDecision_clean (hash : String → String) (c : String) (e : ManifestEntry)
    (h : hash c = e.hash) : syncDecision hash (some c) (some e) = .installFile := by
  simp [syncDecision, h]

theorem syncDecision_untracked (hash : String → String) (c : String) :
    syncDecision hash (some c) none = .preserveFile := rfl

theorem syncDecision_missing (hash : String → String) (m : Option ManifestEntry) :
    syncDecision hash none m = .installFile := rfl

theorem syncDecision_congr (hash : String → String) (c : Option String)
    (m₁ m₂ : Option ManifestEntry)
    (h : m₂.map ManifestEntry.hash = m₁.map ManifestEntry.hash) :
    syncDecision hash c m₂ = syncDecision hash c m₁ := by
  cases c <;> cases m₁ <;> cases m₂ <;> simp_all [syncDecision]

theorem syncFile_of_preserve (ctx : SyncCtx) (relDest : RelPath) (name content : String)
    (st : SyncState)
    (h : syncDecision ctx.hash (lookupKV st.fs (relDest ++ [name]))
      (getManifestEntry st.files (relDest ++ [name])) = .preserveFile) :
    syncFile ctx relDest name content st
      = { st with preservedPaths := st.preservedPaths ++ [relDest ++ [name]] } := by
  simp only [syncFile, h]

theorem syncFile_of_install (ctx : SyncCtx) (relDest : RelPath) (name content : String)
    (st : SyncState)
    (h : syncDecision ctx.hash (lookupKV st.fs (relDest ++ [name]))
      (getManifestEntry st.files (relDest ++ [name])) = .installFile) :
    syncFile ctx relDest name content st
      = { st with
          fs := insertKV (relDest ++ [name]) (writtenContent ctx name content) st.fs
          files := insertKV (relDest ++ [name])
            (installedEntry ctx (relDest ++ [name]) (writtenContent ctx name content)) st.files
          installedPaths := st.installedPaths ++ [relDest ++ [name]] } := by
  simp only [syncFile, h]
  rfl

theorem outcomeShape_refl (ctx : SyncCtx) (st : SyncState) : OutcomeShape ctx st st :=
  fun _ => .inl ⟨rfl, rfl⟩

theorem outcomeShape_trans (ctx : SyncCtx) {s t u : SyncState}
    (h1 : OutcomeShape ctx s t) (h2 : OutcomeShape ctx t u) : OutcomeShape ctx s u := by
  intro p
  rcases h2 p with ⟨hfs, hfi⟩ | ⟨hdec, w, hw1, hw2⟩
  · rcases h1 p with ⟨g1, g2⟩ | ⟨gdec, w, gw1, gw2⟩
    · exact .inl ⟨hfs.trans g1, hfi.trans g2⟩
    · exact .inr ⟨gdec, w, hfs.trans gw1, hfi.trans gw2⟩
  · rcases h1 p with ⟨g1, g2⟩ | ⟨gdec, w', gw1, gw2⟩
    · rw [g1, g2] at hdec
      exact .inr ⟨hdec, w, hw1, hw2⟩
    · exact .inr ⟨gdec, w, hw1, hw2⟩

theorem outcomeShape_syncFile (ctx : SyncCtx) (relDest : RelPath) (name content : String)
    (st : SyncState) : OutcomeShape ctx st (syncFile ctx relDest name content st) := by
  intro p
  cases hdec : syncDecision ctx.hash (lookupKV st.fs (relDest ++ [name]))
      (getManifestEntry st.files (relDest ++ [name])) with
  | preserveFile =>
    rw [syncFile_of_preserve ctx relDest name content st hdec]
    exact .inl ⟨rfl, rfl⟩
  | installFile =>
    rw [syncFile_of_install ctx relDest name content st hdec]
    by_cases hp : p = relDest ++ [name]
    · subst hp
      exact .inr ⟨hdec, writtenContent ctx name content,
        lookupKV_insertKV_self _ _ _, lookupKV_insertKV_self _ _ _⟩
    · exact .inl ⟨lookupKV_insertKV_ne _ _ _ _ hp, lookupKV_insertKV_ne _ _ _ _ hp⟩

theorem outcomeShape_run (ctx : SyncCtx) (relDest : RelPath) (st : SyncState)
    (es : List SrcEntry) :
    OutcomeShape ctx st (copyDirWithManifestTracking ctx relDest st es) := by
  refine copyDirWithManifestTracking.induct ctx
    (fun relDest st e => OutcomeShape ctx st (copyEntryTracking ctx relDest st e))
    (fun relDest st es => OutcomeShape ctx st (copyDirWithManifestTracking ctx relDest st es))
    ?_ ?_ ?_ ?_ relDest st es
  · intro relDest st name content
    simp only [copyEntryTracking]
    exact outcomeShape_syncFile ctx relDest name content st
  · intro relDest st name children ih
    simp only [copyEntryTracking]
    exact ih
  · intro relDest st
    simp only [copyDirWithManifestTracking]
    exact outcomeShape_refl ctx st
  · intro relDest st e rest ih1 ih2
    simp only [copyDirWithManifestTracking]
    exact outcomeShape_trans ctx ih1 ih2

theorem sync_local (ctx : SyncCtx) (relDest : RelPath) (st : SyncState)
    (es : List SrcEntry) (p : RelPath)
    (hp : p ∉ (entriesFilePaths relDest es).map Prod.fst) :
    lookupKV (copyDirWithManifestTracking ctx relDest st es).fs p = lookupKV st.fs p
    ∧ lookupKV (copyDirWithManifestTracking ctx relDest st es).files p
      = lookupKV st.files p := by
  refine copyDirWithManifestTracking.induct ctx
    (fun relDest st e => p ∉ (entryFilePaths relDest e).map Prod.fst →
      lookupKV (copyEntryTracking ctx relDest st e).fs p = lookupKV st.fs p
      ∧ lookupKV (copyEntryTracking ctx relDest st e).files p = lookupKV st.files p)
    (fun relDest st es => p ∉ (entriesFilePaths relDest es).map Prod.fst →
      lookupKV (copyDirWithManifestTracking ctx relDest st es).fs p = lookupKV st.fs p
      ∧ lookupKV (copyDirWithManifestTracking ctx relDest st es).files p
        = lookupKV st.files p)
    ?_ ?_ ?_ ?_ relDest st es hp
  · intro relDest st name content hmem
    simp only [entryFilePaths, List.map_cons, List.map_nil, List.mem_singleton] at hmem
    simp only [copyEntryTracking]
    cases hdec : syncDecision ctx.hash (lookupKV st.fs (relDest ++ [name]))
        (getManifestEntry st.files (relDest ++ [name])) with
    | preserveFile =>
      rw [syncFile_of_preserve ctx relDest name content st hdec]
      exact ⟨rfl, rfl⟩
    | installFile =>
      rw [syncFile_of_install ctx relDest name content st hdec]
      exact ⟨lookupKV_insertKV_ne _ _ _ _ hmem, lookupKV_insertKV_ne _ _ _ _ hmem⟩
  · intro relDest st name children ih hmem
    simp only [entryFilePaths] at hmem
    simp only [copyEntryTracking]
    exact ih hmem
  · intro relDest st _
    simp [copyDirWithManifestTracking]
  · intro relDest st e rest ih1 ih2 hmem
    simp only [entriesFilePaths, List.map_append, List.mem_append] at hmem
    push_neg at hmem
    simp only [copyDirWithManifestTracking]
    obtain ⟨h1a, h1b⟩ := ih1 hmem.1
    obtain ⟨h2a, h2b⟩ := ih2 hmem.2
    exact ⟨h2a.trans h1a, h2b.trans h1b⟩

theorem preserve_run (ctx : SyncCtx) (p : RelPath) (c0 : String) (m0 : Option ManifestEntry)
    (hdec : syncDecision ctx.hash (some c0) m0 = .preserveFile)
    (relDest : RelPath) (st : SyncState) (es : List SrcEntry)
    (hfs : lookupKV st.fs p = some c0) (hfi : lookupKV st.files p = m0) :
    lookupKV (copyDirWithManifestTracking ctx relDest st es).fs p = some c0
    ∧ lookupKV (copyDirWithManifestTracking ctx relDest st es).files p = m0
    ∧ (p ∈ (entriesFilePaths relDest es).map Prod.fst →
        p ∈ (copyDirWithManifestTracking ctx relDest st es).preservedPaths)
    ∧ (∀ q, q ∈ (copyDirWithManifestTracking ctx relDest st es).installedPaths →
        q ∈ st.installedPaths ∨ q ≠ p)
    ∧ (∀ q, q ∈ st.preservedPaths →
        q ∈ (copyDirWithManifestTracking ctx relDest st es).preservedPaths) := by
  refine copyDirWithManifestTracking.induct ctx
    (fun relDest st e => lookupKV st.fs p = some c0 → lookupKV st.files p = m0 →
      lookupKV (copyEntryTracking ctx relDest st e).fs p = some c0
      ∧ lookupKV (copyEntryTracking ctx relDest st e).files p = m0
      ∧ (p ∈ (entryFilePaths relDest e).map Prod.fst →
          p ∈ (copyEntryTracking ctx relDest st e).preservedPaths)
      ∧ (∀ q, q ∈ (copyEntryTracking ctx relDest st e).installedPaths →
          q ∈ st.installedPaths ∨ q ≠ p)
      ∧ (∀ q, q ∈ st.preservedPaths →
          q ∈ (copyEntryTracking ctx relDest st e).preservedPaths))
    (fun relDest st es => lookupKV st.fs p = some c0 → lookupKV st.files p = m0 →
      lookupKV (copyDirWithManifestTracking ctx relDest st es).fs p = some c0
      ∧ lookupKV (copyDirWithManifestTracking ctx relDest st es).files p = m0
      ∧ (p ∈ (entriesFilePaths relDest es).map Prod.fst →
          p ∈ (copyDirWithManifestTracking ctx relDest st es).preservedPaths)
      ∧ (∀ q, q ∈ (copyDirWithManifestTracking ctx relDest st es).installedPaths →
          q ∈ st.installedPaths ∨ q ≠ p)
      ∧ (∀ q, q ∈ st.preservedPaths →
          q ∈ (copyDirWithManifestTracking ctx relDest st es).preservedPaths))
    ?_ ?_ ?_ ?_ relDest st es hfs hfi
  · intro relDest st name content hfs hfi
    simp only [copyEntryTracking, entryFilePaths]
    by_cases hp : relDest ++ [name] = p
    · have hd2 : syncDecision ctx.hash (lookupKV st.fs (relDest ++ [name]))
          (getManifestEntry st.files (relDest ++ [name])) = .preserveFile := by
        rw [hp, hfs, show getManifestEntry st.files p = m0 from hfi]
        exact hdec
      rw [syncFile_of_preserve ctx relDest name content st hd2]
      refine ⟨hfs, hfi, ?_, ?_, ?_⟩
      · intro _
        simp [hp]
      · intro q hq
        exact .inl hq
      · intro q hq
        simp [hq]
    · cases hdec2 : syncDecision ctx.hash (lookupKV st.fs (relDest ++ [name]))
          (getManifestEntry st.files (relDest ++ [name])) with
      | preserveFile =>
        rw [syncFile_of_preserve ctx relDest name content st hdec2]
        refine ⟨hfs, hfi, ?_, ?_, ?_⟩
        · intro hmem
          simp at hmem
          exact absurd hmem.symm hp
        · intro q hq
          exact .inl hq
        · intro q hq
          simp [hq]
      | installFile =>
        rw [syncFile_of_install ctx relDest name content st hdec2]
        have hne : p ≠ relDest ++ [name] := fun e => hp e.symm
        refine ⟨(lookupKV_insertKV_ne _ _ _ _ hne).trans hfs,
          (lookupKV_insertKV_ne _ _ _ _ hne).trans hfi, ?_, ?_, ?_⟩
        · intro hmem
          simp at hmem
          exact absurd hmem.symm hp
        · intro q hq
          simp at hq
          rcases hq with hq | hq
          · exact .inl hq
          · rw [hq]
            exact .inr hp
        · intro q hq
          exact hq
  · intro relDest st name children ih hfs hfi
    simp only [copyEntryTracking, entryFilePaths]
    exact ih hfs hfi
  · intro relDest st hfs hfi
    simp only [copyDirWithManifestTracking, entriesFilePaths]
    exact ⟨hfs, hfi, by simp, fun q hq => .inl hq, fun q hq => hq⟩
  · intro relDest st e rest ih1 ih2 hfs hfi
    simp only [copyDirWithManifestTracking, entriesFilePaths]
    obtain ⟨f1, g1, mem1, inst1, mono1⟩ := ih1 hfs hfi
    obtain ⟨f2, g2, mem2, inst2, mono2⟩ := ih2 f1 g1
    refine ⟨f2, g2, ?_, ?_, fun q hq => mono2 q (mono1 q hq)⟩
    · intro hmem
      simp only [List.map_append, List.mem_append] at hmem
      rcases hmem with hmem | hmem
      · exact mono2 p (mem1 hmem)
      · exact mem2 hmem
    · intro q hq
      rcases inst2 q hq with hq' | hq'
      · exact inst1 q hq'
      · exact .inr hq'

theorem sim_syncFile (ctx₁ ctx₂ : SyncCtx) (hh : ctx₂.hash = ctx₁.hash)
    (hs : ctx₂.subst = ctx₁.subst) (relDest : RelPath) (name content : String)
    (s₁ s₂ : SyncState) (hrel : SimRel ctx₁.hash s₁ s₂) :
    SimRel ctx₁.hash (syncFile ctx₁ relDest name content s₁)
      (syncFile ctx₂ relDest name content s₂)
    ∧ (∀ p, agreeAt s₁ s₂ p →
        agreeAt (syncFile ctx₁ relDest name content s₁)
          (syncFile ctx₂ relDest name content s₂) p)
    ∧ agreeAt (syncFile ctx₁ relDest name content s₁)
        (syncFile ctx₂ relDest name content s₂) (relDest ++ [name])
    ∧ ∃ Δ, (syncFile ctx₁ relDest name content s₁).preservedPaths
            = s₁.preservedPaths ++ Δ
        ∧ (syncFile ctx₂ relDest name content s₂).preservedPaths
            = s₂.preservedPaths ++ Δ := by
  have hd2 : syncDecision ctx₂.hash (lookupKV s₂.fs (relDest ++ [name]))
        (lookupKV s₂.files (relDest ++ [name]))
      = syncDecision ctx₁.hash (lookupKV s₁.fs (relDest ++ [name]))
        (lookupKV s₁.files (relDest ++ [name])) := by
    rcases hrel (relDest ++ [name]) with ⟨ha, hb⟩ | ⟨d1, d2⟩
    · rw [hh, ha]
      exact syncDecision_congr ctx₁.hash _ _ _ hb
    · rw [hh, d1, d2]
  cases hd1 : syncDecision ctx₁.hash (lookupKV s₁.fs (relDest ++ [name]))
      (lookupKV s₁.files (relDest ++ [name])) with
  | preserveFile =>
    have e₁ := syncFile_of_preserve ctx₁ relDest name content s₁ hd1
    have e₂ := syncFile_of_preserve ctx₂ relDest name content s₂ (hd2.trans hd1)
    rw [e₁, e₂]
    refine ⟨fun p => hrel p, fun p h => h, ?_, [relDest ++ [name]], rfl, rfl⟩
    rcases hrel (relDest ++ [name]) with h | ⟨d1, _⟩
    · exact h
    · rw [hd1] at d1
      simp at d1
  | installFile =>
    have e₁ := syncFile_of_install ctx₁ relDest name content s₁ hd1
    have e₂ := syncFile_of_install ctx₂ relDest name content s₂ (hd2.trans hd1)
    rw [e₁, e₂]
    have hw : writtenContent ctx₂ name content = writtenContent ctx₁ name content := by
      unfold writtenContent
      rw [hs]
    have hagree : agreeAt
        { s₁ with
          fs := insertKV (relDest ++ [name]) (writtenContent ctx₁ name content) s₁.fs
          files := insertKV (relDest ++ [name])
            (installedEntry ctx₁ (relDest ++ [name]) (writtenContent ctx₁ name content)) s₁.files
          installedPaths := s₁.installedPaths ++ [relDest ++ [name]] }
        { s₂ with
          fs := insertKV (relDest ++ [name]) (writtenContent ctx₂ name content) s₂.fs
          files := insertKV (relDest ++ [name])
            (installedEntry ctx₂ (relDest ++ [name]) (writtenContent ctx₂ name content)) s₂.files
          installedPaths := s₂.installedPaths ++ [relDest ++ [name]] }
        (relDest ++ [name]) := by
      constructor
      · simp only [lookupKV_insertKV_self, hw]
      · simp [lookupKV_insertKV_self, installedEntry, hw, hh]
    have hpres : ∀ p, agreeAt s₁ s₂ p →
        agreeAt
          { s₁ with
            fs := insertKV (relDest ++ [name]) (writtenContent ctx₁ name content) s₁.fs
            files := insertKV (relDest ++ [name])
              (installedEntry ctx₁ (relDest ++ [name]) (writtenContent ctx₁ name content)) s₁.files
            installedPaths := s₁.installedPaths ++ [relDest ++ [name]] }
          { s₂ with
            fs := insertKV (relDest ++ [name]) (writtenContent ctx₂ name content) s₂.fs
            files := insertKV (relDest ++ [name])
              (installedEntry ctx₂ (relDest ++ [name]) (writtenContent ctx₂ name content)) s₂.files
            installedPaths := s₂.installedPaths ++ [relDest ++ [name]] }
          p := by
      intro p hp
      by_cases hq : p = relDest ++ [name]
      · rw [hq]
        exact hagree
      · obtain ⟨hpa, hpb⟩ := hp
        exact ⟨by simp only [lookupKV_insertKV_ne _ _ _ _ hq]; exact hpa,
          by simp only [lookupKV_insertKV_ne _ _ _ _ hq]; exact hpb⟩
    refine ⟨?_, hpres, hagree, [], by simp, by simp⟩
    intro p
    by_cases hq : p = relDest ++ [name]
    · rw [hq]
      exact .inl hagree
    · rcases hrel p with hp | ⟨d1, d2⟩
      · exact .inl (hpres p hp)
      · refine .inr ⟨?_, ?_⟩
        · simp only [lookupKV_insertKV_ne _ _ _ _ hq]
          exact d1
        · simp only [lookupKV_insertKV_ne _ _ _ _ hq]
          exact d2

theorem sim_run (ctx₁ ctx₂ : SyncCtx) (hh : ctx₂.hash = ctx₁.hash)
    (hs : ctx₂.subst = ctx₁.subst) (relDest : RelPath) (s₁ : SyncState)
    (es : List SrcEntry) (s₂ : SyncState) (hrel : SimRel ctx₁.hash s₁ s₂) :
    SimRel ctx₁.hash (copyDirWithManifestTracking ctx₁ relDest s₁ es)
      (copyDirWithManifestTracking ctx₂ relDest s₂ es)
    ∧ (∀ p, agreeAt s₁ s₂ p →
        agreeAt (copyDirWithManifestTracking ctx₁ relDest s₁ es)
          (copyDirWithManifestTracking ctx₂ relDest s₂ es) p)
    ∧ (∀ p, p ∈ (entriesFilePaths relDest es).map Prod.fst →
        agreeAt (copyDirWithManifestTracking ctx₁ relDest s₁ es)
          (copyDirWithManifestTracking ctx₂ relDest s₂ es) p)
    ∧ ∃ Δ, (copyDirWithManifestTracking ctx₁ relDest s₁ es).preservedPaths
            = s₁.preservedPaths ++ Δ
        ∧ (copyDirWithManifestTracking ctx₂ relDest s₂ es).preservedPaths
            = s₂.preservedPaths ++ Δ := by
  refine copyDirWithManifestTracking.induct ctx₁
    (fun relDest s₁ e => ∀ s₂, SimRel ctx₁.hash s₁ s₂ →
      SimRel ctx₁.hash (copyEntryTracking ctx₁ relDest s₁ e)
        (copyEntryTracking ctx₂ relDest s₂ e)
      ∧ (∀ p, agreeAt s₁ s₂ p →
          agreeAt (copyEntryTracking ctx₁ relDest s₁ e)
            (copyEntryTracking ctx₂ relDest s₂ e) p)
      ∧ (∀ p, p ∈ (entryFilePaths relDest e).map Prod.fst →
          agreeAt (copyEntryTracking ctx₁ relDest s₁ e)
            (copyEntryTracking ctx₂ relDest s₂ e) p)
      ∧ ∃ Δ, (copyEntryTracking ctx₁ relDest s₁ e).preservedPaths
              = s₁.preservedPaths ++ Δ
          ∧ (copyEntryTracking ctx₂ relDest s₂ e).preservedPaths
              = s₂.preservedPaths ++ Δ)
    (fun relDest s₁ es => ∀ s₂, SimRel ctx₁.hash s₁ s₂ →
      SimRel ctx₁.hash (copyDirWithManifestTracking ctx₁ relDest s₁ es)
        (copyDirWithManifestTracking ctx₂ relDest s₂ es)
      ∧ (∀ p, agreeAt s₁ s₂ p →
          agreeAt (copyDirWithManifestTracking ctx₁ relDest s₁ es)
            (copyDirWithManifestTracking ctx₂ relDest s₂ es) p)
      ∧ (∀ p, p ∈ (entriesFilePaths relDest es).map Prod.fst →
          agreeAt (copyDirWithManifestTracking ctx₁ relDest s₁ es)
            (copyDirWithManifestTracking ctx₂ relDest s₂ es) p)
      ∧ ∃ Δ, (copyDirWithManifestTracking ctx₁ relDest s₁ es).preservedPaths
              = s₁.preservedPaths ++ Δ
          ∧ (copyDirWithManifestTracking ctx₂ relDest s₂ es).preservedPaths
              = s₂.preservedPaths ++ Δ)
    ?_ ?_ ?_ ?_ relDest s₁ es s₂ hrel
  · intro relDest s₁ name content s₂ hrel
    simp only [copyEntryTracking, entryFilePaths]
    obtain ⟨hsim, hpres, hag, hΔ⟩ := sim_syncFile ctx₁ ctx₂ hh hs relDest name content s₁ s₂ hrel
    refine ⟨hsim, hpres, ?_, hΔ⟩
    intro p hp
    simp only [List.map_cons, List.map_nil, List.mem_singleton] at hp
    rw [hp]
    exact hag
  · intro relDest s₁ name children ih s₂ hrel
    simp only [copyEntryTracking, entryFilePaths]
    exact ih s₂ hrel
  · intro relDest s₁ s₂ hrel
    simp only [copyDirWithManifestTracking, entriesFilePaths]
    exact ⟨hrel, fun p h => h, by simp, [], by simp, by simp⟩
  · intro relDest s₁ e rest ih1 ih2 s₂ hrel
    simp only [copyDirWithManifestTracking, entriesFilePaths]
    obtain ⟨hsim1, hpres1, hag1, Δ1, hΔ1a, hΔ1b⟩ := ih1 s₂ hrel
    obtain ⟨hsim2, hpres2, hag2, Δ2, hΔ2a, hΔ2b⟩ :=
      ih2 (copyEntryTracking ctx₂ relDest s₂ e) hsim1
    refine ⟨hsim2, fun p hp => hpres2 p (hpres1 p hp), ?_, Δ1 ++ Δ2, ?_, ?_⟩
    · intro p hp
      simp only [List.map_append, List.mem_append] at hp
      rcases hp with hp | hp
      · exact hpres2 p (hag1 p hp)
      · exact hag2 p hp
    · rw [hΔ2a, hΔ1a, List.append_assoc]
    · rw [hΔ2b, hΔ1b, List.append_assoc]

theorem lookupKV_filter {α : Type} (f : RelPath → Bool) (m : List (RelPath × α)) (p : RelPath) :
    lookupKV (m.filter (fun kv => f kv.1)) p = if f p then lookupKV m p else none := by
  induction m with
  | nil =>
    simp only [List.filter_nil]
    split <;> rfl
  | cons kv t ih =>
    obtain ⟨k, v⟩ := kv
    by_cases hf : f k
    · by_cases hk : k = p
      · subst hk
        simp [List.filter_cons, hf, lookupKV]
      · simp [List.filter_cons, hf, lookupKV, hk, ih]
    · by_cases hk : k = p
      · subst hk
        simp [List.filter_cons, hf, lookupKV, ih]
      · simp [List.filter_cons, hf, lookupKV, hk, ih]

/-- C9: `isFileModified` maps an unreadable/deleted file (a failing read,
`none`) to `false` — the tracked file is reported as not modified instead of
an error being propagated. -/
theorem isFileModified_unreadable (hash : String → String) (expectedHash : String) :
    isFileModified hash none expectedHash = false := rfl

/-- C5: the claim says `loadManifest` returns a manifest only when
`schemaVersion` equals 1 and `files` is an object, but the source's check
`typeof manifest.files !== "object"` accepts `files: null` (in JS,
`typeof null === "object"`), so the manifest JSON
`\x7b"schemaVersion": 1, "files": null\x7d` — whose `files` is not an
object — loads as a (corrupt) manifest object instead of as absent. -/
theorem loadManifest_accepts_null_files :
    loadManifest (some (.obj [("schemaVersion", .num 1), ("files", .null)]))
      = some (.obj [("schemaVersion", .num 1), ("files", .null)])
    ∧ getField (.obj [("schemaVersion", .num 1), ("files", .null)]) "files"
      = some .null := by
  exact ⟨rfl, rfl⟩

/-- C7 counterexample: `saveManifest` also rewrites `nojoVersion` to the
current package version, so for a persisted manifest whose recorded
`nojoVersion` (`"0.1.0"`) differs from the current version (`"0.2.0"`),
`save(load(m))` changes a field other than `updatedAt`. -/
theorem saveManifest_roundtrip_cex :
    loadManifest (some (.obj [("schemaVersion", .num 1), ("files", .obj []),
        ("nojoVersion", .str "0.1.0"), ("updatedAt", .str "t0")]))
      = some (.obj [("schemaVersion", .num 1), ("files", .obj []),
        ("nojoVersion", .str "0.1.0"), ("updatedAt", .str "t0")])
    ∧ getField (.obj [("schemaVersion", .num 1), ("files", .obj []),
        ("nojoVersion", .str "0.1.0"), ("updatedAt", .str "t0")]) "nojoVersion"
      = some (.str "0.1.0")
    ∧ getField (saveManifest (.obj [("schemaVersion", .num 1), ("files", .obj []),
        ("nojoVersion", .str "0.1.0"), ("updatedAt", .str "t0")]) "t1" "0.2.0")
        "nojoVersion"
      = some (.str "0.2.0")
    ∧ Json.str "0.2.0" ≠ Json.str "0.1.0" := by
  refine ⟨rfl, rfl, rfl, ?_⟩
  intro h
  injection h with h2
  exact absurd h2 (by decide)

/-- C7 amended: `save(load(m))` leaves the `files` mapping unchanged entry
for entry; only the `updatedAt` and `nojoVersion` fields of the manifest
change (the source refreshes both on every save). -/
theorem saveManifest_roundtrip (m m' : Json) (now version : String)
    (h : loadManifest (some m) = some m') :
    m' = m
    ∧ getField (saveManifest m' now version) "files" = getField m "files"
    ∧ ∀ k, k ≠ "updatedAt" → k ≠ "nojoVersion" →
        getField (saveManifest m' now version) k = getField m k := by
  have hm : m' = m := by
    cases m with
    | null => simp [loadManifest] at h
    | bool b => simp [loadManifest, jsTypeofObject] at h
    | num n => simp [loadManifest, jsTypeofObject] at h
    | str s => simp [loadManifest, jsTypeofObject] at h
    | arr a =>
      simp only [loadManifest, jsTypeofObject] at h
      split_ifs at h <;> simp_all
    | obj fields =>
      simp only [loadManifest, jsTypeofObject] at h
      split_ifs at h <;> simp_all
  subst hm
  refine ⟨rfl, ?_, ?_⟩
  · unfold saveManifest
    rw [getField_setField_ne _ _ _ _ (by decide : ("files" : String) ≠ "nojoVersion")]
    rw [getField_setField_ne _ _ _ _ (by decide : ("files" : String) ≠ "updatedAt")]
  · intro k hk1 hk2
    unfold saveManifest
    rw [getField_setField_ne _ _ _ _ hk2, getField_setField_ne _ _ _ _ hk1]

theorem saveManifest_roundtrip_witness :
    loadManifest (some (.obj [("schemaVersion", .num 1), ("files",
        .obj [("x", .str "h")])]))
      = some (.obj [("schemaVersion", .num 1), ("files", .obj [("x", .str "h")])])
    ∧ getField (saveManifest (.obj [("schemaVersion", .num 1), ("files",
        .obj [("x", .str "h")])]) "t1" "2.0.0") "files"
      = getField (.obj [("schemaVersion", .num 1), ("files", .obj [("x", .str "h")])])
        "files" := by
  refine ⟨rfl, ?_⟩
  exact (saveManifest_roundtrip
    (.obj [("schemaVersion", .num 1), ("files", .obj [("x", .str "h")])])
    (.obj [("schemaVersion", .num 1), ("files", .obj [("x", .str "h")])])
    "t1" "2.0.0" rfl).2.1

/-- C8 counterexample: for a config whose `agents` mapping is present but
empty, the installed-agents list is `["claude-code"]` while the key set is
empty — the two disagree, refuting "the list is exactly the key set". -/
theorem getInstalledAgents_cex :
    getInstalledAgents ⟨"/home/u", none, none, some (.obj [])⟩ = ["claude-code"]
    ∧ jsObjectKeys (.obj []) = ([] : List String) := ⟨rfl, rfl⟩

/-- C8 amended: the installed-agents list is the key set of the config's
`agents` mapping whenever that key set is nonempty; when `agents` is absent
or its key set is empty, the source falls back to `["claude-code"]` (a
backwards-compatibility default, not a separately stored list). -/
theorem getInstalledAgents_spec (c : Config) (a : Json) :
    (c.agents = some a → jsObjectKeys a ≠ [] → getInstalledAgents c = jsObjectKeys a)
    ∧ (c.agents = some a → jsObjectKeys a = [] →
        getInstalledAgents c = ["claude-code"])
    ∧ (c.agents = none → getInstalledAgents c = ["claude-code"]) := by
  refine ⟨?_, ?_, ?_⟩
  · intro h hne
    simp only [getInstalledAgents, h]
    rw [if_pos]
    exact Nat.lt_of_lt_of_le (Nat.zero_lt_one) (by
      cases hx : jsObjectKeys a with
      | nil => exact absurd hx hne
      | cons y ys => simp [hx])
  · intro h he
    simp [getInstalledAgents, h, he]
  · intro h
    simp [getInstalledAgents, h, jsObjectKeys]

theorem getInstalledAgents_spec_witness :
    (⟨"/d", none, none, some (.obj [("claude-code", .null), ("cursor", .null)])⟩ :
        Config).agents = some (.obj [("claude-code", .null), ("cursor", .null)])
    ∧ jsObjectKeys (.obj [("claude-code", .null), ("cursor", .null)]) ≠ []
    ∧ getInstalledAgents ⟨"/d", none, none,
        some (.obj [("claude-code", .null), ("cursor", .null)])⟩
      = jsObjectKeys (.obj [("claude-code", .null), ("cursor", .null)]) := by
  refine ⟨rfl, by decide, ?_⟩
  exact (getInstalledAgents_spec
    ⟨"/d", none, none, some (.obj [("claude-code", .null), ("cursor", .null)])⟩
    (.obj [("claude-code", .null), ("cursor", .null)])).1 rfl (by decide)

/-- C3 counterexample: the skills uninstaller deletes a skill file that is
user-modified with respect to its tracked hash (here the on-disk content
`"user edited"` hashes — with the identity digest — to something other than
the recorded `"originalhash"`, i.e. `isFileModified` is `true`), although the
claim says user-modified files are left untouched during a full uninstall. -/
theorem uninstallSkills_cex :
    isFileModified id (some "user edited") "originalhash" = true
    ∧ lookupKV (uninstallSkills [".claude", "skills"]
        [([".claude", "skills", "writing", "SKILL.md"], "user edited")])
        [".claude", "skills", "writing", "SKILL.md"] = none := by
  exact ⟨by decide, by decide⟩

/-- C3 amended: during a full uninstall the skills installer removes the
entire skills directory — every file under it, tracked or not, modified or
not — and the manifest loader deletes the manifest file whenever it exists,
regardless of how many tracked entries remain; files outside the skills
directory are untouched by `uninstallSkills`, and `uninstallManifest` removes
only the manifest file.  (The enclosing `.claude` directory is removed only
when it is empty on disk.) -/
theorem uninstall_blanket_removal (skillsDir : RelPath) (fs : List (RelPath × String))
    (p : RelPath) :
    lookupKV (uninstallSkills skillsDir fs) p
      = (if List.isPrefixOf skillsDir p then none else lookupKV fs p)
    ∧ lookupKV (uninstallManifest fs) p
      = (if p = manifestFilePath then none else lookupKV fs p) := by
  constructor
  · have h := lookupKV_filter (fun q => !(List.isPrefixOf skillsDir q)) fs p
    cases hb : List.isPrefixOf skillsDir p
    · rw [hb] at h
      simpa [uninstallSkills] using h
    · rw [hb] at h
      simpa [uninstallSkills] using h
  · have h := lookupKV_filter (fun q => q != manifestFilePath) fs p
    by_cases hb : p = manifestFilePath
    · subst hb
      simpa [uninstallManifest] using h
    · simpa [uninstallManifest, hb] using h

/-- C1: for every sync run and every source file whose destination file
exists and is tracked in the manifest, if the current hash of the destination
content differs from the tracked entry's hash, the run leaves the destination
content byte-for-byte unchanged, leaves the manifest entry (hence its hash)
unchanged, and counts the file as preserved rather than installed. -/
theorem sync_preserves_user_modified (ctx : SyncCtx) (relDest : RelPath)
    (tree : List SrcEntry) (fs0 : List (RelPath × String))
    (files0 : List (RelPath × ManifestEntry)) (p : RelPath) (c : String)
    (e : ManifestEntry)
    (hsrc : p ∈ (entriesFilePaths relDest tree).map Prod.fst)
    (hfs : lookupKV fs0 p = some c)
    (hent : lookupKV files0 p = some e)
    (hmod : ctx.hash c ≠ e.hash) :
    lookupKV (copyDirWithManifestTracking ctx relDest ⟨fs0, files0, [], []⟩ tree).fs p
      = some c
    ∧ lookupKV (copyDirWithManifestTracking ctx relDest ⟨fs0, files0, [], []⟩ tree).files p
      = some e
    ∧ p ∈ (copyDirWithManifestTracking ctx relDest ⟨fs0, files0, [], []⟩ tree).preservedPaths
    ∧ p ∉ (copyDirWithManifestTracking ctx relDest ⟨fs0, files0, [], []⟩ tree).installedPaths := by
  obtain ⟨h1, h2, h3, h4, _⟩ := preserve_run ctx p c (some e)
    (syncDecision_modified ctx.hash c e hmod) relDest ⟨fs0, files0, [], []⟩ tree hfs hent
  refine ⟨h1, h2, h3 hsrc, ?_⟩
  intro hmem
  rcases h4 p hmem with hq | hq
  · simp at hq
  · exact hq rfl

theorem sync_preserves_user_modified_witness :
    ([".claude", "skills", "writing", "SKILL.md"] : RelPath)
      ∈ (entriesFilePaths [".claude", "skills"]
          [.dir "writing" [.file "SKILL.md" "v2"]]).map Prod.fst
    ∧ lookupKV [([".claude", "skills", "writing", "SKILL.md"], "edited")]
        [".claude", "skills", "writing", "SKILL.md"] = some "edited"
    ∧ lookupKV [([".claude", "skills", "writing", "SKILL.md"],
        (⟨[".claude", "skills", "writing", "SKILL.md"], "orig", "nojo", some "prof",
          "1.0.0", "t0"⟩ : ManifestEntry))]
        [".claude", "skills", "writing", "SKILL.md"]
      = some ⟨[".claude", "skills", "writing", "SKILL.md"], "orig", "nojo", some "prof",
          "1.0.0", "t0"⟩
    ∧ (⟨id, id, "prof", "1.0.0", "t0"⟩ : SyncCtx).hash "edited"
        ≠ (⟨[".claude", "skills", "writing", "SKILL.md"], "orig", "nojo", some "prof",
          "1.0.0", "t0"⟩ : ManifestEntry).hash
    ∧ lookupKV (copyDirWithManifestTracking ⟨id, id, "prof", "1.0.0", "t0"⟩
        [".claude", "skills"]
        ⟨[([".claude", "skills", "writing", "SKILL.md"], "edited")],
         [([".claude", "skills", "writing", "SKILL.md"],
           ⟨[".claude", "skills", "writing", "SKILL.md"], "orig", "nojo", some "prof",
             "1.0.0", "t0"⟩)], [], []⟩
        [.dir "writing" [.file "SKILL.md" "v2"]]).fs
        [".claude", "skills", "writing", "SKILL.md"] = some "edited" := by
  refine ⟨by simp [entriesFilePaths, entryFilePaths], rfl, rfl, by decide, ?_⟩
  exact (sync_preserves_user_modified ⟨id, id, "prof", "1.0.0", "t0"⟩
    [".claude", "skills"] [.dir "writing" [.file "SKILL.md" "v2"]]
    [([".claude", "skills", "writing", "SKILL.md"], "edited")]
    [([".claude", "skills", "writing", "SKILL.md"],
      ⟨[".claude", "skills", "writing", "SKILL.md"], "orig", "nojo", some "prof",
        "1.0.0", "t0"⟩)]
    [".claude", "skills", "writing", "SKILL.md"] "edited"
    ⟨[".claude", "skills", "writing", "SKILL.md"], "orig", "nojo", some "prof",
      "1.0.0", "t0"⟩
    (by simp [entriesFilePaths, entryFilePaths]) rfl rfl (by decide)).1

/-- C2: for every sync run and every source file whose destination file
exists but has no manifest entry, the run neither overwrites nor deletes the
destination file, never adds a manifest entry for that path, and counts the
file as preserved rather than installed. -/
theorem sync_preserves_untracked (ctx : SyncCtx) (relDest : RelPath)
    (tree : List SrcEntry) (fs0 : List (RelPath × String))
    (files0 : List (RelPath × ManifestEntry)) (p : RelPath) (c : String)
    (hsrc : p ∈ (entriesFilePaths relDest tree).map Prod.fst)
    (hfs : lookupKV fs0 p = some c)
    (hent : lookupKV files0 p = none) :
    lookupKV (copyDirWithManifestTracking ctx relDest ⟨fs0, files0, [], []⟩ tree).fs p
      = some c
    ∧ lookupKV (copyDirWithManifestTracking ctx relDest ⟨fs0, files0, [], []⟩ tree).files p
      = none
    ∧ p ∈ (copyDirWithManifestTracking ctx relDest ⟨fs0, files0, [], []⟩ tree).preservedPaths
    ∧ p ∉ (copyDirWithManifestTracking ctx relDest ⟨fs0, files0, [], []⟩ tree).installedPaths := by
  obtain ⟨h1, h2, h3, h4, _⟩ := preserve_run ctx p c none
    (syncDecision_untracked ctx.hash c) relDest ⟨fs0, files0, [], []⟩ tree hfs hent
  refine ⟨h1, h2, h3 hsrc, ?_⟩
  intro hmem
  rcases h4 p hmem with hq | hq
  · simp at hq
  · exact hq rfl

theorem sync_preserves_untracked_witness :
    (["notes.txt"] : RelPath)
      ∈ (entriesFilePaths [] [.file "notes.txt" "engine version"]).map Prod.fst
    ∧ lookupKV [(["notes.txt"], "my own notes")] ["notes.txt"] = some "my own notes"
    ∧ lookupKV ([] : List (RelPath × ManifestEntry)) ["notes.txt"] = none
    ∧ lookupKV (copyDirWithManifestTracking ⟨id, id, "prof", "1.0.0", "t0"⟩ []
        ⟨[(["notes.txt"], "my own notes")], [], [], []⟩
        [.file "notes.txt" "engine version"]).files ["notes.txt"] = none := by
  refine ⟨by simp [entriesFilePaths, entryFilePaths], rfl, rfl, ?_⟩
  exact (sync_preserves_untracked ⟨id, id, "prof", "1.0.0", "t0"⟩ []
    [.file "notes.txt" "engine version"] [(["notes.txt"], "my own notes")] []
    ["notes.txt"] "my own notes"
    (by simp [entriesFilePaths, entryFilePaths]) rfl rfl).2.1

/-- C6: whenever the sync writes a destination file (for `.md` files the
template placeholders are substituted before writing and hashing), the
manifest entry it records carries the hash of the exact final content written
to disk; and over a whole run, a tracked entry is either left untouched or
replaced by an entry whose hash is the hash of the final on-disk content —
so a preserved file's entry hash is never updated. -/
theorem manifest_hash_reflects_written (ctx : SyncCtx) :
    (∀ relDest name content st,
      syncDecision ctx.hash (lookupKV st.fs (relDest ++ [name]))
        (lookupKV st.files (relDest ++ [name])) = .installFile →
      lookupKV (syncFile ctx relDest name content st).fs (relDest ++ [name])
        = some (writtenContent ctx name content)
      ∧ lookupKV (syncFile ctx relDest name content st).files (relDest ++ [name])
        = some (installedEntry ctx (relDest ++ [name]) (writtenContent ctx name content))
      ∧ (installedEntry ctx (relDest ++ [name]) (writtenContent ctx name content)).hash
        = ctx.hash (writtenContent ctx name content))
    ∧ (∀ relDest st es p e2,
      lookupKV (copyDirWithManifestTracking ctx relDest st es).files p = some e2 →
      lookupKV st.files p = some e2
      ∨ ∃ w, lookupKV (copyDirWithManifestTracking ctx relDest st es).fs p = some w
          ∧ e2.hash = ctx.hash w) := by
  constructor
  · intro relDest name content st hdec
    rw [syncFile_of_install ctx relDest name content st hdec]
    exact ⟨lookupKV_insertKV_self _ _ _, lookupKV_insertKV_self _ _ _, rfl⟩
  · intro relDest st es p e2 h
    rcases outcomeShape_run ctx relDest st es p with ⟨_, h2⟩ | ⟨_, w, hw1, hw2⟩
    · rw [h2] at h
      exact .inl h
    · rw [hw2] at h
      injection h with h3
      exact .inr ⟨w, hw1, by rw [← h3]; rfl⟩

theorem manifest_hash_reflects_written_witness :
    syncDecision (⟨id, id, "prof", "1.0.0", "t0"⟩ : SyncCtx).hash
        (lookupKV ([] : List (RelPath × String)) (["sub"] ++ ["a.md"]))
        (lookupKV ([] : List (RelPath × ManifestEntry)) (["sub"] ++ ["a.md"]))
      = .installFile
    ∧ lookupKV (syncFile ⟨id, id, "prof", "1.0.0", "t0"⟩ ["sub"] "a.md" "x"
        ⟨[], [], [], []⟩).files (["sub"] ++ ["a.md"])
      = some (installedEntry ⟨id, id, "prof", "1.0.0", "t0"⟩ (["sub"] ++ ["a.md"])
          (writtenContent ⟨id, id, "prof", "1.0.0", "t0"⟩ "a.md" "x")) := by
  refine ⟨rfl, ?_⟩
  exact ((manifest_hash_reflects_written ⟨id, id, "prof", "1.0.0", "t0"⟩).1
    ["sub"] "a.md" "x" ⟨[], [], [], []⟩ rfl).2.1

/-- C10: `loadConfig` migrates the legacy top-level `profile` field — when
the validated on-disk config has no `agents` object but has a
`profile.baseProfile` value, the loaded config's `agents` holds a
`claude-code` entry whose `baseProfile` is the legacy value; and when an
`agents` object is present it takes precedence and the legacy `profile`
field is ignored. -/
theorem loadConfig_legacy_migration :
    (∀ raw validated instDir s prof,
      validateConfigSchema raw = some validated →
      getField validated "agents" = none →
      getField validated "profile" = some prof →
      getField prof "baseProfile" = some (.str s) →
      ∃ c, loadConfig (some raw) instDir = some c
        ∧ c.agents = some (.obj [("claude-code",
            .obj [("profile", .obj [("baseProfile", .str s)])])]))
    ∧ (∀ raw validated instDir afs,
      validateConfigSchema raw = some validated →
      getField validated "agents" = some (.obj afs) →
      ∃ c, loadConfig (some raw) instDir = some c ∧ c.agents = some (.obj afs)) := by
  constructor
  · intro raw validated instDir s prof hv hag hpr hbp
    cases raw with
    | obj fields =>
      simp only [loadConfig, jsTypeofObject, hv, legacyAgentsOf, hag, hpr, hbp]
      exact ⟨_, rfl, rfl⟩
    | null => simp [validateConfigSchema] at hv
    | bool b => simp [validateConfigSchema] at hv
    | num n => simp [validateConfigSchema] at hv
    | str st => simp [validateConfigSchema] at hv
    | arr a => simp [validateConfigSchema] at hv
  · intro raw validated instDir afs hv hag
    cases raw with
    | obj fields =>
      simp only [loadConfig, jsTypeofObject, hv, hag]
      exact ⟨_, rfl, rfl⟩
    | null => simp [validateConfigSchema] at hv
    | bool b => simp [validateConfigSchema] at hv
    | num n => simp [validateConfigSchema] at hv
    | str st => simp [validateConfigSchema] at hv
    | arr a => simp [validateConfigSchema] at hv

theorem loadConfig_legacy_migration_witness :
    validateConfigSchema (.obj [("profile", .obj [("baseProfile", .str "amol")])])
      = some (.obj [("profile", .obj [("baseProfile", .str "amol")]),
          ("autoupdate", .str "disabled")])
    ∧ getField (.obj [("profile", .obj [("baseProfile", .str "amol")]),
        ("autoupdate", .str "disabled")]) "agents" = none
    ∧ getField (.obj [("profile", .obj [("baseProfile", .str "amol")]),
        ("autoupdate", .str "disabled")]) "profile"
      = some (.obj [("baseProfile", .str "amol")])
    ∧ getField (.obj [("baseProfile", .str "amol")]) "baseProfile"
      = some (.str "amol")
    ∧ ∃ c, loadConfig (some (.obj [("profile", .obj [("baseProfile", .str "amol")])]))
        "/home/u" = some c
      ∧ c.agents = some (.obj [("claude-code",
          .obj [("profile", .obj [("baseProfile", .str "amol")])])]) := by
  refine ⟨rfl, rfl, rfl, rfl, ?_⟩
  exact (loadConfig_legacy_migration).1
    (.obj [("profile", .obj [("baseProfile", .str "amol")])])
    (.obj [("profile", .obj [("baseProfile", .str "amol")]),
      ("autoupdate", .str "disabled")])
    "/home/u" "amol" (.obj [("baseProfile", .str "amol")]) rfl rfl rfl rfl

/-- C4: running the sync twice over the same source tree with no external
modification in between (the second run differs at most in timestamp-like
context, with the same digest and the same template substitution) yields the
same sequence of preserved files, and every destination file's content after
the second run equals its content after the first run byte for byte. -/
theorem sync_idempotent (ctx₁ ctx₂ : SyncCtx) (hh : ctx₂.hash = ctx₁.hash)
    (hs : ctx₂.subst = ctx₁.subst) (relDest : RelPath)
    (fs0 : List (RelPath × String)) (files0 : List (RelPath × ManifestEntry))
    (tree : List SrcEntry) :
    (copyDirWithManifestTracking ctx₂ relDest
        ⟨(copyDirWithManifestTracking ctx₁ relDest ⟨fs0, files0, [], []⟩ tree).fs,
         (copyDirWithManifestTracking ctx₁ relDest ⟨fs0, files0, [], []⟩ tree).files,
         [], []⟩ tree).preservedPaths
      = (copyDirWithManifestTracking ctx₁ relDest ⟨fs0, files0, [], []⟩ tree).preservedPaths
    ∧ ∀ p, lookupKV (copyDirWithManifestTracking ctx₂ relDest
        ⟨(copyDirWithManifestTracking ctx₁ relDest ⟨fs0, files0, [], []⟩ tree).fs,
         (copyDirWithManifestTracking ctx₁ relDest ⟨fs0, files0, [], []⟩ tree).files,
         [], []⟩ tree).fs p
      = lookupKV (copyDirWithManifestTracking ctx₁ relDest ⟨fs0, files0, [], []⟩ tree).fs p := by
  set s0 : SyncState := ⟨fs0, files0, [], []⟩ with hs0
  set S1 := copyDirWithManifestTracking ctx₁ relDest s0 tree with hS1
  set r1 : SyncState := ⟨S1.fs, S1.files, [], []⟩ with hr1
  have hrel : SimRel ctx₁.hash s0 r1 := by
    intro p
    rcases outcomeShape_run ctx₁ relDest s0 tree p with ⟨h1, h2⟩ | ⟨hdec, w, hw1, hw2⟩
    · exact .inl ⟨h1, by rw [show lookupKV r1.files p = lookupKV S1.files p from rfl, h2]⟩
    · refine .inr ⟨hdec, ?_⟩
      rw [show lookupKV r1.fs p = lookupKV S1.fs p from rfl, hw1,
        show lookupKV r1.files p = lookupKV S1.files p from rfl, hw2]
      exact syncDecision_clean ctx₁.hash w (installedEntry ctx₁ p w) rfl
  obtain ⟨hsim, hpres, hag, Δ, hΔ1, hΔ2⟩ := sim_run ctx₁ ctx₂ hh hs relDest s0 tree r1 hrel
  constructor
  · rw [hΔ2, hΔ1]
  · intro p
    by_cases hp : p ∈ (entriesFilePaths relDest tree).map Prod.fst
    · exact (hag p hp).1
    · have l2 := sync_local ctx₂ relDest r1 tree p hp
      rw [l2.1]

theorem sync_idempotent_witness :
    (⟨id, id, "prof", "1.0.0", "t1"⟩ : SyncCtx).hash
      = (⟨id, id, "prof", "1.0.0", "t0"⟩ : SyncCtx).hash
    ∧ (⟨id, id, "prof", "1.0.0", "t1"⟩ : SyncCtx).subst
      = (⟨id, id, "prof", "1.0.0", "t0"⟩ : SyncCtx).subst
    ∧ ((copyDirWithManifestTracking ⟨id, id, "prof", "1.0.0", "t1"⟩ []
        ⟨(copyDirWithManifestTracking ⟨id, id, "prof", "1.0.0", "t0"⟩ []
            ⟨[], [], [], []⟩ [.file "a.txt" "x"]).fs,
         (copyDirWithManifestTracking ⟨id, id, "prof", "1.0.0", "t0"⟩ []
            ⟨[], [], [], []⟩ [.file "a.txt" "x"]).files,
         [], []⟩ [.file "a.txt" "x"]).preservedPaths
      = (copyDirWithManifestTracking ⟨id, id, "prof", "1.0.0", "t0"⟩ []
          ⟨[], [], [], []⟩ [.file "a.txt" "x"]).preservedPaths
    ∧ ∀ p, lookupKV (copyDirWithManifestTracking ⟨id, id, "prof", "1.0.0", "t1"⟩ []
        ⟨(copyDirWithManifestTracking ⟨id, id, "prof", "1.0.0", "t0"⟩ []
            ⟨[], [], [], []⟩ [.file "a.txt" "x"]).fs,
         (copyDirWithManifestTracking ⟨id, id, "prof", "1.0.0", "t0"⟩ []
            ⟨[], [], [], []⟩ [.file "a.txt" "x"]).files,
         [], []⟩ [.file "a.txt" "x"]).fs p
      = lookupKV (copyDirWithManifestTracking ⟨id, id, "prof", "1.0.0", "t0"⟩ []
          ⟨[], [], [], []⟩ [.file "a.txt" "x"]).fs p) :=
  ⟨rfl, rfl, sync_idempotent ⟨id, id, "prof", "1.0.0", "t0"⟩
    ⟨id, id, "prof", "1.0.0", "t1"⟩ rfl rfl [] [] [] [.file "a.txt" "x"]⟩

end Nojo
